import Mathlib

/-!
Verification of the directory-chunking and hierarchical index-generation core of
`vitepress-plugin-llms` (`src/helpers/index.ts` and its call site in `src/index.ts`).

The embedding models:
- the Node `path` (posix) primitives the code relies on (`path.relative`,
  `path.dirname`, `path.basename`), restricted to the slash-normalized relative
  paths the code actually feeds them, with the process working directory
  modelled as `/` for `path.resolve`;
- `organizeFilesByDepth` (the Depth Chunker), with the JS `Map` modelled as an
  insertion-ordered association list, matching `Map` iteration order;
- `generateNavigationSection` (the Navigation Resolver);
- `expandTemplate` (the Template Expander), whose source file
  (`src/helpers/utils.ts`) is not part of the sources at hand and is therefore
  modelled from the specification.

All definitions are executable and structurally recursive so that concrete runs
reduce by `decide` / `rfl`.
-/

/-! ## Character-level path primitives -/

/-- Splits a character list on the given separator, keeping empty segments:
the char-level model of JS `string.split(sep)` for a one-character separator.
Always returns a non-empty list. -/
def splitOnCh (sep : Char) : List Char → List (List Char)
  | [] => [[]]
  | c :: cs =>
    if c = sep then [] :: splitOnCh sep cs
    else
      match splitOnCh sep cs with
      | [] => [[c]]
      | s :: ss => (c :: s) :: ss

/-- Splits a character list on `/`: the char-level model of JS
`string.split('/')`. -/
def splitOnSlashCh : List Char → List (List Char) :=
  splitOnCh '/'

/-- Joins character-list segments with the given separator: the char-level
model of JS `array.join(sep)` for a one-character separator. -/
def joinWithCh (sep : Char) : List (List Char) → List Char
  | [] => []
  | [s] => s
  | s :: rest => s ++ sep :: joinWithCh sep rest

/-- Joins character-list segments with `/`: the char-level model of JS
`array.join('/')`. -/
def joinSlashCh : List (List Char) → List Char :=
  joinWithCh '/'

/-- Model of JS `string.split('/')` on `String`s. -/
def splitOnSlash (p : String) : List String :=
  (splitOnSlashCh p.data).map (fun l => ⟨l⟩)

/-- Model of JS `array.join('/')` on `String`s. -/
def joinSlash (l : List String) : String :=
  ⟨joinSlashCh (l.map String.data)⟩

/-- Model of `relativePath.replace(/\\/g, '/')` (helpers/index.ts line 97):
every backslash becomes a forward slash. -/
def normSlashes (s : String) : String :=
  ⟨s.data.map (fun c => if c = '\\' then '/' else c)⟩

/-- Segment-stack normalization used by posix `path.resolve` when resolving an
absolute path: drops empty and `.` segments, a `..` pops the previous segment
(and is dropped at the root). -/
def normalizeSegs (segs : List String) : List String :=
  segs.foldl
    (fun stack seg =>
      if seg = "" ∨ seg = "." then stack
      else if seg = ".." then stack.dropLast
      else stack ++ [seg])
    []

/-- Drops the longest common leading run of two segment lists, returning the
two remainders (the core step of posix `path.relative`). -/
def dropShared : List String → List String → List String × List String
  | a :: as, b :: bs => if a = b then dropShared as bs else (a :: as, b :: bs)
  | as, bs => (as, bs)

/-- Model of posix `path.relative(fromPath, toPath)` with the process working
directory modelled as `/`: both arguments are resolved to normalized absolute
segment lists, the common leading segments are dropped, and the result climbs
with `..` for each remaining `fromPath` segment before descending into the
remaining `toPath` segments. -/
def pathRelative (fromPath toPath : String) : String :=
  let f := normalizeSegs (splitOnSlash fromPath)
  let t := normalizeSegs (splitOnSlash toPath)
  let ft := dropShared f t
  joinSlash (List.replicate ft.1.length ".." ++ ft.2)

/-- Model of posix `path.dirname` restricted to slash-normalized paths without
leading or trailing slashes (the only shapes the chunker feeds it): everything
before the last `/`, or `.` when there is no `/`. -/
def dirname (p : String) : String :=
  match splitOnSlash p with
  | [] => "."
  | [_] => "."
  | segs => joinSlash segs.dropLast

/-- Model of posix `path.basename` restricted to slash-normalized paths without
trailing slashes: the last `/`-separated segment. -/
def basename (p : String) : String :=
  (splitOnSlash p).getLastD ""

/-- Model of `s.charAt(0).toUpperCase() + s.slice(1)` (for ASCII data, where
JS `toUpperCase` and `Char.toUpper` agree). -/
def capitalize (s : String) : String :=
  match s.data with
  | [] => ""
  | c :: cs => ⟨c.toUpper :: cs⟩

/-! ## The Depth Chunker (`organizeFilesByDepth`, helpers/index.ts 85-156) -/

/-- One prepared document handed to the core (helpers receive `PreparedFile`
values; only `path` drives the chunker, `title` rides along). -/
structure PreparedFile where
  path : String
  title : String
deriving DecidableEq

/-- A directory with its files and navigation context
(interface `DirectoryChunk`, helpers/index.ts 47-60). -/
structure DirectoryChunk where
  dirPath : String
  files : List PreparedFile
  depth : Nat
  parentPath : String
  siblingPaths : List String
  childPaths : List String
deriving DecidableEq

/-- Lines 95-97: `path.relative(srcDir, file.path)` followed by backslash
normalization. -/
def relativeNormalized (srcDir p : String) : String :=
  normSlashes (pathRelative srcDir p)

/-- Line 98: `path.dirname(normalizedPath).split('/')` for one file. -/
def fileDirParts (srcDir : String) (file : PreparedFile) : List String :=
  splitOnSlash (dirname (relativeNormalized srcDir file.path))

/-- Line 101: the list of levels `d` visited by
`for (let d = 1; d <= Math.min(depth, dirParts.length + 1); d++)`. -/
def levelsFor (depth : Int) (numParts : Nat) : List Nat :=
  (List.range (min depth ((numParts : Int) + 1)).toNat).map (· + 1)

/-- Line 102: `d === 1 ? '' : dirParts.slice(0, d - 1).join('/')`. -/
def dirPathForLevel (dirParts : List String) (d : Nat) : String :=
  if d = 1 then "" else joinSlash (dirParts.take (d - 1))

/-- Lines 104-107: `if (!map.has(dirPath)) map.set(dirPath, []);
map.get(dirPath).push(file)` over an insertion-ordered association list
(the JS `Map` model). -/
def mapPush (m : List (String × List PreparedFile)) (k : String) (f : PreparedFile) :
    List (String × List PreparedFile) :=
  match m with
  | [] => [(k, [f])]
  | (k', fs) :: rest =>
    if k' = k then (k', fs ++ [f]) :: rest else (k', fs) :: mapPush rest k f

/-- Lines 91-109: the `directoryMap` accumulated by grouping every file under
each of its level prefixes. -/
def buildDirectoryMap (preparedFiles : List PreparedFile) (srcDir : String)
    (depth : Int) : List (String × List PreparedFile) :=
  preparedFiles.foldl
    (fun m file =>
      let dirParts := fileDirParts srcDir file
      (levelsFor depth dirParts.length).foldl
        (fun m d => mapPush m (dirPathForLevel dirParts d) file) m)
    []

/-- Line 124 (and 131): `dirPath === '' ? '' :
path.dirname(dirPath) === '.' ? '' : path.dirname(dirPath)`. -/
def parentOf (dirPath : String) : String :=
  if dirPath = "" then ""
  else if dirname dirPath = "." then "" else dirname dirPath

/-- Line 123 (and 132): `dirPath === '' ? 1 : dirPath.split('/').length + 1`. -/
def depthLevelOf (dirPath : String) : Nat :=
  if dirPath = "" then 1 else (splitOnSlash dirPath).length + 1

/-- Lines 129-133: the sibling filter body (`p` is a candidate dirPath). -/
def siblingPred (dirPath p : String) : Bool :=
  if p = dirPath then false
  else decide (parentOf p = parentOf dirPath ∧ depthLevelOf p = depthLevelOf dirPath)

/-- Lines 139-142: the child filter body (the source computes `pParent`
without a `p === ''` case, but `p = ""` is excluded by the guard, so
`parentOf` coincides with it there). -/
def childPred (dirPath p : String) : Bool :=
  if p = "" ∨ dirPath = "" then false else decide (parentOf p = dirPath)

/-- Lines 122-152: the chunk built for one surviving map entry, where
`validKeys` is `validDirectories.map(([p]) => p)`. -/
def chunkFor (validKeys : List String) (dirPath : String)
    (files : List PreparedFile) : DirectoryChunk :=
  { dirPath := dirPath
    files := files
    depth := depthLevelOf dirPath
    parentPath := parentOf dirPath
    siblingPaths := validKeys.filter (siblingPred dirPath)
    childPaths := validKeys.filter (childPred dirPath) }

/-- Lines 112-117: the filter keeping the root entry iff it has at least one
file and any other entry iff it has at least `minFilesPerChunk` files. -/
def validDirectories (preparedFiles : List PreparedFile) (srcDir : String)
    (depth : Int) (minFilesPerChunk : Nat) : List (String × List PreparedFile) :=
  (buildDirectoryMap preparedFiles srcDir depth).filter
    (fun kv =>
      if kv.1 = "" then decide (0 < kv.2.length)
      else decide (minFilesPerChunk ≤ kv.2.length))

/-- Lines 85-156: `organizeFilesByDepth`. -/
def organizeFilesByDepth (preparedFiles : List PreparedFile) (srcDir : String)
    (depth : Int) (minFilesPerChunk : Nat) : List DirectoryChunk :=
  let vd := validDirectories preparedFiles srcDir depth minFilesPerChunk
  vd.map (fun kv => chunkFor (vd.map Prod.fst) kv.1 kv.2)

/-! ## The Navigation Resolver (`generateNavigationSection`, 161-194) -/

/-- Options for generating navigation links (interface `NavigationOptions`,
helpers/index.ts 65-80). `srcDir` and `cleanUrls` are destructured but unused
by the source function; they are kept for fidelity. -/
structure NavigationOptions where
  currentDirPath : String
  parentPath : String
  siblingPaths : List String
  childPaths : List String
  domain : Option String
  srcDir : String
  cleanUrls : Bool

/-- Model of `links.join('\n')`. -/
def joinNL (l : List String) : String :=
  ⟨joinWithCh '\n' (l.map String.data)⟩

/-- Lines 166-174: the parent link line, emitted only when
`parentPath !== currentDirPath && currentDirPath !== ''`. -/
def parentLinkLine (domain : Option String) (parentPath : String) : String :=
  let parentLlmsPath := if parentPath = "" then "llms.txt" else parentPath ++ "/llms.txt"
  let parentUrl :=
    match domain with
    | some d => d ++ "/" ++ parentLlmsPath
    | none => "/" ++ parentLlmsPath
  let parentTitle :=
    if parentPath = "" then "Documentation Overview" else capitalize (basename parentPath)
  "- [" ++ parentTitle ++ "](" ++ parentUrl ++ "): Parent documentation section"

/-- Lines 177-183 and 186-191: a sibling or child link line (the two loops
produce identical text for a given target path). -/
def relLinkLine (domain : Option String) (targetPath : String) : String :=
  let llmsPath := targetPath ++ "/llms.txt"
  let url :=
    match domain with
    | some d => d ++ "/" ++ llmsPath
    | none => "/" ++ llmsPath
  let title := capitalize (basename targetPath)
  "- [" ++ title ++ "](" ++ url ++ "): " ++ title ++ " documentation"

/-- Lines 161-194: `generateNavigationSection`. -/
def generateNavigationSection (options : NavigationOptions) : String :=
  let parentLinks :=
    if options.parentPath ≠ options.currentDirPath ∧ options.currentDirPath ≠ "" then
      [parentLinkLine options.domain options.parentPath]
    else []
  let siblingLinks := options.siblingPaths.map (relLinkLine options.domain)
  let childLinks := options.childPaths.map (relLinkLine options.domain)
  let links := parentLinks ++ siblingLinks ++ childLinks
  if 0 < links.length then joinNL links else ""

/-! ## The Template Expander (spec-modelled) -/

/-- Word characters permitted inside a `{name}` placeholder (letters, digits,
underscore). -/
def isWordChar (c : Char) : Bool :=
  c.isAlphanum || c = '_'

/-- Splits a character list on `{`, keeping empty segments (the scanner's view
of a template: head literal, then one part per opening brace). -/
def splitOnBraceCh : List Char → List (List Char) :=
  splitOnCh '{'

/-- Looks a placeholder name up in the variable map: an absent name or a
`none` (JS `undefined`) value yields the empty string. -/
def lookupVar (vars : List (String × Option String)) (name : String) : String :=
  match vars.find? (fun kv => kv.1 == name) with
  | some (_, some v) => v
  | _ => ""

/-- Processes one post-`{` part: when it starts with a non-empty word-character
run followed by `}`, that placeholder is replaced by its looked-up value;
otherwise the opening brace was literal text and is restored. -/
def expandPart (vars : List (String × Option String)) (part : List Char) :
    List Char :=
  let name := part.takeWhile isWordChar
  match part.drop name.length with
  | '}' :: tail =>
    if name.isEmpty then '{' :: part else (lookupVar vars ⟨name⟩).data ++ tail
  | _ => '{' :: part

/-- Modelled from the spec: `expandTemplate` of `src/helpers/utils.ts` is not
among the sources at hand (only its import sites are), so this follows §4.5 of
the specification: every `{name}` placeholder occurrence is replaced by the
corresponding value's string form, an absent or undefined name by the empty
string, and a literal `{` not part of a recognized placeholder passes through
unchanged. -/
def expandTemplate (template : String)
    (vars : List (String × Option String)) : String :=
  match splitOnBraceCh template.data with
  | [] => ""
  | first :: rest => ⟨first ++ (rest.map (expandPart vars)).flatten⟩

/-- A template decomposed into literal runs and placeholders, used to state
what expansion does to arbitrary templates. -/
inductive TemplateToken where
  | lit : String → TemplateToken
  | ph : String → TemplateToken
deriving DecidableEq

/-- The template string a token list denotes: literals verbatim, a placeholder
`ph name` as the text `{name}`. -/
def flattenTokens : List TemplateToken → String
  | [] => ""
  | .lit s :: rest => s ++ flattenTokens rest
  | .ph n :: rest => "\x7b" ++ n ++ "\x7d" ++ flattenTokens rest

/-- The expected expansion of a token list: literals verbatim, each
placeholder replaced by its looked-up value (empty when absent/undefined). -/
def renderTokens (vars : List (String × Option String)) :
    List TemplateToken → String
  | [] => ""
  | .lit s :: rest => s ++ renderTokens vars rest
  | .ph n :: rest => lookupVar vars n ++ renderTokens vars rest

/-- Well-formedness of a token: a literal holds no opening brace, a
placeholder name is a non-empty run of word characters. -/
def tokenWF : TemplateToken → Bool
  | .lit s => decide ('{' ∉ s.data)
  | .ph n => decide (n.data ≠ []) && n.data.all isWordChar

/-! ## Spec-side rendering of navigation (for the refinement claim C7) -/

/-- Spec wording: the link's visible title is the last path segment of the
target with its first character capitalized. -/
def specNavTitle (targetDir : String) : String :=
  capitalize ((splitOnSlash targetDir).getLastD "")

/-- Spec wording: href is `{domain}/{targetDir}/llms.txt` when the domain is
set and `/{targetDir}/llms.txt` otherwise; the root target uses `llms.txt`
with no directory prefix. -/
def specNavHref (domain : Option String) (targetDir : String) : String :=
  let tail := if targetDir = "" then "llms.txt" else targetDir ++ "/llms.txt"
  match domain with
  | some d => d ++ "/" ++ tail
  | none => "/" ++ tail

/-- Spec wording: the parent link's title is `Documentation Overview` when the
parent is root, its description is the fixed text
`Parent documentation section`. -/
def specParentLine (domain : Option String) (parentPath : String) : String :=
  let title := if parentPath = "" then "Documentation Overview" else specNavTitle parentPath
  "- [" ++ title ++ "](" ++ specNavHref domain parentPath ++ "): Parent documentation section"

/-- Spec wording: sibling and child hrefs interpolate the target directory as
`{domain}/{targetDir}/llms.txt` (no domain: `/{targetDir}/llms.txt`; the root
special case concerns only the parent link, the one link that can target
root), and their descriptions read `{Title} documentation`. -/
def specSiblingChildLine (domain : Option String) (targetDir : String) : String :=
  let href :=
    match domain with
    | some d => d ++ "/" ++ targetDir ++ "/llms.txt"
    | none => "/" ++ targetDir ++ "/llms.txt"
  "- [" ++ specNavTitle targetDir ++ "](" ++ href ++ "): "
    ++ specNavTitle targetDir ++ " documentation"

/-- Spec wording: a parent link line appears iff the parent differs from the
current directory and the current directory is non-root; sibling lines precede
child lines, each group in the supplied order. -/
def specNavLines (options : NavigationOptions) : List String :=
  (if options.parentPath ≠ options.currentDirPath ∧ options.currentDirPath ≠ "" then
    [specParentLine options.domain options.parentPath]
  else [])
    ++ options.siblingPaths.map (specSiblingChildLine options.domain)
    ++ options.childPaths.map (specSiblingChildLine options.domain)

/-! ## Lemmas: split/join primitives -/

theorem splitOnCh_ne_nil (sep : Char) : ∀ cs, splitOnCh sep cs ≠ [] := by
  intro cs
  cases cs with
  | nil => simp [splitOnCh]
  | cons c cs =>
    simp only [splitOnCh]
    split
    · simp
    · split <;> simp_all

theorem splitOnCh_sep_cons (sep : Char) (cs : List Char) :
    splitOnCh sep (sep :: cs) = [] :: splitOnCh sep cs := by
  simp [splitOnCh]

theorem splitOnCh_cons_ne (sep c : Char) (cs : List Char) (hc : c ≠ sep)
    (s : List Char) (ss : List (List Char)) (h : splitOnCh sep cs = s :: ss) :
    splitOnCh sep (c :: cs) = (c :: s) :: ss := by
  simp [splitOnCh, hc, h]

theorem joinWithCh_cons_cons (sep c : Char) (s : List Char) (ss : List (List Char)) :
    joinWithCh sep ((c :: s) :: ss) = c :: joinWithCh sep (s :: ss) := by
  cases ss <;> simp [joinWithCh]

theorem joinWithCh_nil_cons (sep : Char) (s : List Char) (ss : List (List Char)) :
    joinWithCh sep ([] :: s :: ss) = sep :: joinWithCh sep (s :: ss) := by
  simp [joinWithCh]

theorem joinWithCh_splitOnCh (sep : Char) : ∀ cs, joinWithCh sep (splitOnCh sep cs) = cs := by
  intro cs
  induction cs with
  | nil => simp [splitOnCh, joinWithCh]
  | cons c cs ih =>
    obtain ⟨s, ss, hss⟩ := List.exists_cons_of_ne_nil (splitOnCh_ne_nil sep cs)
    by_cases hc : c = sep
    · subst hc
      rw [splitOnCh_sep_cons, hss, joinWithCh_nil_cons, ← hss, ih]
    · rw [splitOnCh_cons_ne sep c cs hc s ss hss, joinWithCh_cons_cons, ← hss, ih]

theorem splitOnCh_append_not_mem (sep : Char) :
    ∀ (a b : List Char), sep ∉ a →
      ∀ s ss, splitOnCh sep b = s :: ss → splitOnCh sep (a ++ b) = (a ++ s) :: ss := by
  intro a
  induction a with
  | nil => intro b _ s ss h; simpa using h
  | cons c a ih =>
    intro b hmem s ss h
    have hc : c ≠ sep := by
      intro hcs; exact hmem (hcs ▸ List.mem_cons_self c a)
    have ha : sep ∉ a := fun hx => hmem (List.mem_cons_of_mem c hx)
    have := ih b ha s ss h
    rw [List.cons_append, splitOnCh_cons_ne sep c (a ++ b) hc (a ++ s) ss this]
    simp

theorem joinWithCh_append_singleton (sep : Char) :
    ∀ (l : List (List Char)) (x : List Char), l ≠ [] →
      joinWithCh sep (l ++ [x]) = joinWithCh sep l ++ sep :: x := by
  intro l
  induction l with
  | nil => intro x h; exact absurd rfl h
  | cons s rest ih =>
    intro x _
    cases rest with
    | nil => simp [joinWithCh]
    | cons t ts =>
      have h2 := ih x (by simp)
      simp only [List.cons_append, joinWithCh, List.append_eq] at h2 ⊢
      rw [h2]
      simp

/-! ## Lemmas: string-level path facts -/

theorem splitOnSlash_ne_nil (p : String) : splitOnSlash p ≠ [] := by
  simp only [splitOnSlash, splitOnSlashCh, ne_eq, List.map_eq_nil_iff]
  exact splitOnCh_ne_nil '/' p.data

theorem data_ne_nil_of_ne_empty (p : String) (h : p ≠ "") : p.data ≠ [] := by
  intro hd
  exact h (String.ext hd)

theorem joinSlash_splitOnSlash (p : String) : joinSlash (splitOnSlash p) = p := by
  apply String.ext
  show joinSlashCh (((splitOnSlashCh p.data).map (fun l => (⟨l⟩ : String))).map String.data) = p.data
  rw [List.map_map]
  have hid : (String.data ∘ fun l => (⟨l⟩ : String)) = id := rfl
  rw [hid, List.map_id]
  exact joinWithCh_splitOnCh '/' p.data

theorem dirname_of_single (p s : String) (h : splitOnSlash p = [s]) :
    dirname p = "." := by
  simp [dirname, h]

theorem dirname_of_cons_cons (p a b : String) (l : List String)
    (h : splitOnSlash p = a :: b :: l) :
    dirname p = joinSlash ((a :: b :: l).dropLast) := by
  simp [dirname, h]

theorem joinSlash_length_lt (l : List String) (hl : 2 ≤ l.length) :
    (joinSlash l.dropLast).length < (joinSlash l).length := by
  have hD : (l.map String.data) ≠ [] := by
    simp only [ne_eq, List.map_eq_nil_iff]
    intro hnil
    rw [hnil] at hl
    simp at hl
  have hDL : (l.map String.data).dropLast ≠ [] := by
    apply List.ne_nil_of_length_pos
    rw [List.length_dropLast, List.length_map]
    omega
  have key := joinWithCh_append_singleton '/' ((l.map String.data).dropLast)
    ((l.map String.data).getLast hD) hDL
  rw [List.dropLast_append_getLast hD] at key
  show (joinSlashCh ((l.dropLast).map String.data)).length < (joinSlashCh (l.map String.data)).length
  rw [List.map_dropLast]
  show (joinWithCh '/' ((l.map String.data).dropLast)).length < (joinWithCh '/' (l.map String.data)).length
  rw [key, List.length_append]
  simp

theorem parentOf_length_lt (p : String) (h : p ≠ "") :
    (parentOf p).length < p.length := by
  have hd : p.data ≠ [] := data_ne_nil_of_ne_empty p h
  have hlen : 0 < p.length := List.length_pos.mpr hd
  obtain ⟨s, ss, hsplit⟩ := List.exists_cons_of_ne_nil (splitOnSlash_ne_nil p)
  cases ss with
  | nil =>
    have hdn : dirname p = "." := dirname_of_single p s hsplit
    simp only [parentOf, h, if_false, hdn, if_true, if_pos rfl]
    simpa using hlen
  | cons t ts =>
    by_cases hdot : dirname p = "."
    · simp only [parentOf, if_neg h, hdot, if_pos rfl]
      simpa using hlen
    · simp only [parentOf, if_neg h, if_neg hdot]
      have hdn : dirname p = joinSlash ((s :: t :: ts).dropLast) :=
        dirname_of_cons_cons p s t ts hsplit
      have hp : p = joinSlash (s :: t :: ts) := by
        rw [← hsplit, joinSlash_splitOnSlash]
      rw [hdn]
      conv_rhs => rw [hp]
      exact joinSlash_length_lt (s :: t :: ts) (by simp)

theorem parentOf_ne_self (p : String) (h : p ≠ "") : parentOf p ≠ p := by
  intro he
  have hlt := parentOf_length_lt p h
  rw [he] at hlt
  exact lt_irrefl _ hlt

/-! ## Lemmas: the association-list model of the JS `Map` -/

/-- Lookup in the association-list `Map` model; `[]` stands for an absent key
(a key is never bound to `[]`, since every `set(k, [])` is followed by a
`push`). -/
def lookupD : List (String × List PreparedFile) → String → List PreparedFile
  | [], _ => []
  | (k', fs) :: rest, k => if k' = k then fs else lookupD rest k

theorem lookupD_mapPush_self (m : List (String × List PreparedFile))
    (k : String) (f : PreparedFile) :
    lookupD (mapPush m k f) k = lookupD m k ++ [f] := by
  induction m with
  | nil => simp [mapPush, lookupD]
  | cons kv rest ih =>
    obtain ⟨k', fs⟩ := kv
    by_cases hk : k' = k
    · subst hk
      simp [mapPush, lookupD]
    · simp [mapPush, lookupD, hk, ih]

theorem lookupD_mapPush_ne (m : List (String × List PreparedFile))
    (k k' : String) (f : PreparedFile) (h : k' ≠ k) :
    lookupD (mapPush m k f) k' = lookupD m k' := by
  have hks : k ≠ k' := Ne.symm h
  induction m with
  | nil => simp [mapPush, lookupD, hks]
  | cons kv rest ih =>
    obtain ⟨k₀, fs⟩ := kv
    by_cases hk : k₀ = k
    · subst hk
      simp [mapPush, lookupD, hks]
    · simp only [mapPush, if_neg hk, lookupD]
      by_cases hk' : k₀ = k'
      · simp [hk']
      · simp [hk', ih]

theorem keys_mapPush (m : List (String × List PreparedFile))
    (k : String) (f : PreparedFile) :
    (mapPush m k f).map Prod.fst =
      if k ∈ m.map Prod.fst then m.map Prod.fst else m.map Prod.fst ++ [k] := by
  induction m with
  | nil => simp [mapPush]
  | cons kv rest ih =>
    obtain ⟨k₀, fs⟩ := kv
    by_cases hk : k₀ = k
    · subst hk
      simp [mapPush]
    · simp only [mapPush, if_neg hk, List.map_cons, ih]
      by_cases hmem : k ∈ rest.map Prod.fst
      · simp [hmem, Ne.symm hk]
      · simp [hmem, Ne.symm hk]

theorem nodup_keys_mapPush (m : List (String × List PreparedFile))
    (k : String) (f : PreparedFile) (h : (m.map Prod.fst).Nodup) :
    ((mapPush m k f).map Prod.fst).Nodup := by
  rw [keys_mapPush]
  by_cases hmem : k ∈ m.map Prod.fst
  · simpa [hmem] using h
  · simp only [hmem, if_false]
    rw [List.nodup_append]
    exact ⟨h, List.nodup_singleton k, by simpa using hmem⟩

theorem mem_keys_of_lookupD_ne_nil (m : List (String × List PreparedFile))
    (k : String) (h : lookupD m k ≠ []) : k ∈ m.map Prod.fst := by
  induction m with
  | nil => simp [lookupD] at h
  | cons kv rest ih =>
    obtain ⟨k₀, fs⟩ := kv
    by_cases hk : k₀ = k
    · simp [hk]
    · simp only [lookupD, if_neg hk] at h
      simp [ih h]

theorem mem_of_lookupD (m : List (String × List PreparedFile))
    (k : String) (h : k ∈ m.map Prod.fst) : (k, lookupD m k) ∈ m := by
  induction m with
  | nil => simp at h
  | cons kv rest ih =>
    obtain ⟨k₀, fs⟩ := kv
    by_cases hk : k₀ = k
    · subst hk
      simp [lookupD]
    · simp only [List.map_cons, List.mem_cons] at h
      rcases h with h | h
      · exact absurd h.symm hk
      · simp only [lookupD, if_neg hk]
        exact List.mem_cons_of_mem _ (ih h)

theorem lookupD_eq_of_mem (m : List (String × List PreparedFile))
    (k : String) (fs : List PreparedFile)
    (hnd : (m.map Prod.fst).Nodup) (hm : (k, fs) ∈ m) : lookupD m k = fs := by
  induction m with
  | nil => simp at hm
  | cons kv rest ih =>
    obtain ⟨k₀, fs₀⟩ := kv
    simp only [List.map_cons, List.nodup_cons] at hnd
    rcases List.mem_cons.mp hm with h | h
    · cases h
      simp [lookupD]
    · have hk : k₀ ≠ k := by
        intro he
        subst he
        exact hnd.1 (List.mem_map_of_mem Prod.fst h)
      simp only [lookupD, if_neg hk]
      exact ih hnd.2 h

/-! ## Lemmas: accumulation in `buildDirectoryMap` -/

/-- The directory prefixes one file is accumulated under (one per visited
level of the line-101 loop). -/
def filePrefixes (srcDir : String) (depth : Int) (file : PreparedFile) : List String :=
  (levelsFor depth (fileDirParts srcDir file).length).map
    (dirPathForLevel (fileDirParts srcDir file))

/-- The whole per-file body of the grouping loop (lines 94-109): pushes the
file under each of its level prefixes. -/
def accumulateFile (srcDir : String) (depth : Int)
    (m : List (String × List PreparedFile)) (file : PreparedFile) :
    List (String × List PreparedFile) :=
  (levelsFor depth (fileDirParts srcDir file).length).foldl
    (fun m d => mapPush m (dirPathForLevel (fileDirParts srcDir file) d) file) m

theorem buildDirectoryMap_eq (files : List PreparedFile) (srcDir : String) (depth : Int) :
    buildDirectoryMap files srcDir depth = files.foldl (accumulateFile srcDir depth) [] := rfl

theorem mem_lookupD_mapPush (m : List (String × List PreparedFile)) (k k' : String)
    (f f' : PreparedFile) (h : f ∈ lookupD m k) : f ∈ lookupD (mapPush m k' f') k := by
  by_cases hk : k' = k
  · subst hk
    rw [lookupD_mapPush_self]
    exact List.mem_append_left _ h
  · rw [lookupD_mapPush_ne m k' k f' (Ne.symm hk)]
    exact h

theorem mem_lookupD_foldlPush (key : Nat → String) (f' : PreparedFile) :
    ∀ (ds : List Nat) (m : List (String × List PreparedFile)) (k : String) (f : PreparedFile),
      f ∈ lookupD m k →
      f ∈ lookupD (ds.foldl (fun m d => mapPush m (key d) f') m) k := by
  intro ds
  induction ds with
  | nil => intro m k f h; simpa using h
  | cons d ds ih =>
    intro m k f h
    simp only [List.foldl_cons]
    exact ih _ k f (mem_lookupD_mapPush m k (key d) f f' h)

theorem mem_lookupD_foldlPush_self (key : Nat → String) (f : PreparedFile) :
    ∀ (ds : List Nat) (m : List (String × List PreparedFile)) (d : Nat), d ∈ ds →
      f ∈ lookupD (ds.foldl (fun m d => mapPush m (key d) f) m) (key d) := by
  intro ds
  induction ds with
  | nil => intro m d h; simp at h
  | cons d₀ ds ih =>
    intro m d hd
    rcases List.mem_cons.mp hd with h | h
    · subst h
      simp only [List.foldl_cons]
      apply mem_lookupD_foldlPush
      rw [lookupD_mapPush_self]
      exact List.mem_append_right _ (List.mem_singleton_self f)
    · simp only [List.foldl_cons]
      exact ih _ d h

theorem lookupD_foldl_accumulate_mono (srcDir : String) (depth : Int) :
    ∀ (files : List PreparedFile) (m : List (String × List PreparedFile))
      (k : String) (f : PreparedFile),
      f ∈ lookupD m k → f ∈ lookupD (files.foldl (accumulateFile srcDir depth) m) k := by
  intro files
  induction files with
  | nil => intro m k f h; simpa using h
  | cons x xs ih =>
    intro m k f h
    simp only [List.foldl_cons]
    exact ih _ k f (mem_lookupD_foldlPush _ x _ m k f h)

theorem mem_lookupD_foldl_accumulate (srcDir : String) (depth : Int) :
    ∀ (files : List PreparedFile) (m : List (String × List PreparedFile))
      (f : PreparedFile) (k : String),
      f ∈ files → k ∈ filePrefixes srcDir depth f →
      f ∈ lookupD (files.foldl (accumulateFile srcDir depth) m) k := by
  intro files
  induction files with
  | nil => intro m f k h; simp at h
  | cons x xs ih =>
    intro m f k hf hk
    simp only [List.foldl_cons]
    rcases List.mem_cons.mp hf with h | h
    · subst h
      apply lookupD_foldl_accumulate_mono
      simp only [filePrefixes, List.mem_map] at hk
      obtain ⟨d, hd, hdk⟩ := hk
      rw [← hdk]
      exact mem_lookupD_foldlPush_self _ f _ m d hd
    · exact ih _ f k h hk

theorem mem_lookupD_build (files : List PreparedFile) (srcDir : String) (depth : Int)
    (f : PreparedFile) (k : String) (hf : f ∈ files)
    (hk : k ∈ filePrefixes srcDir depth f) :
    f ∈ lookupD (buildDirectoryMap files srcDir depth) k := by
  rw [buildDirectoryMap_eq]
  exact mem_lookupD_foldl_accumulate srcDir depth files [] f k hf hk

theorem length_lookupD_mapPush_ge (m : List (String × List PreparedFile))
    (k k' : String) (f : PreparedFile) :
    (lookupD m k).length ≤ (lookupD (mapPush m k' f) k).length := by
  by_cases hk : k' = k
  · subst hk
    rw [lookupD_mapPush_self]
    simp
  · rw [lookupD_mapPush_ne m k' k f (Ne.symm hk)]

theorem length_lookupD_foldlPush_ge (key : Nat → String) (f' : PreparedFile) :
    ∀ (ds : List Nat) (m : List (String × List PreparedFile)) (k : String),
      (lookupD m k).length ≤ (lookupD (ds.foldl (fun m d => mapPush m (key d) f') m) k).length := by
  intro ds
  induction ds with
  | nil => intro m k; simp
  | cons d ds ih =>
    intro m k
    simp only [List.foldl_cons]
    exact le_trans (length_lookupD_mapPush_ge m k (key d) f') (ih _ k)

theorem length_lookupD_foldlPush_succ (key : Nat → String) (f : PreparedFile) :
    ∀ (ds : List Nat) (m : List (String × List PreparedFile)) (k : String),
      k ∈ ds.map key →
      (lookupD m k).length + 1 ≤
        (lookupD (ds.foldl (fun m d => mapPush m (key d) f) m) k).length := by
  intro ds
  induction ds with
  | nil => intro m k h; simp at h
  | cons d ds ih =>
    intro m k hk
    simp only [List.map_cons, List.mem_cons] at hk
    simp only [List.foldl_cons]
    rcases hk with h | h
    · subst h
      calc (lookupD m (key d)).length + 1
          = (lookupD (mapPush m (key d) f) (key d)).length := by
            rw [lookupD_mapPush_self]; simp
        _ ≤ _ := length_lookupD_foldlPush_ge key f ds _ (key d)
    · exact le_trans (by simpa using Nat.add_le_add_right (length_lookupD_mapPush_ge m k (key d) f) 1)
        (ih _ k h)

theorem count_le_length_lookupD_foldl (srcDir : String) (depth : Int) (k : String) :
    ∀ (files : List PreparedFile) (m : List (String × List PreparedFile)),
      (lookupD m k).length +
        (files.filter (fun f => decide (k ∈ filePrefixes srcDir depth f))).length ≤
      (lookupD (files.foldl (accumulateFile srcDir depth) m) k).length := by
  intro files
  induction files with
  | nil => intro m; simp
  | cons x xs ih =>
    intro m
    simp only [List.foldl_cons]
    by_cases hx : k ∈ filePrefixes srcDir depth x
    · rw [List.filter_cons_of_pos (by simpa using hx), List.length_cons]
      have h1 : (lookupD m k).length + 1 ≤ (lookupD (accumulateFile srcDir depth m x) k).length := by
        apply length_lookupD_foldlPush_succ
        simpa [filePrefixes] using hx
      have h2 := ih (accumulateFile srcDir depth m x)
      omega
    · rw [List.filter_cons_of_neg (by simpa using hx)]
      have h1 : (lookupD m k).length ≤ (lookupD (accumulateFile srcDir depth m x) k).length :=
        length_lookupD_foldlPush_ge _ x _ m k
      have h2 := ih (accumulateFile srcDir depth m x)
      omega

theorem count_le_length_lookupD_build (files : List PreparedFile) (srcDir : String)
    (depth : Int) (k : String) :
    (files.filter (fun f => decide (k ∈ filePrefixes srcDir depth f))).length ≤
      (lookupD (buildDirectoryMap files srcDir depth) k).length := by
  rw [buildDirectoryMap_eq]
  have := count_le_length_lookupD_foldl srcDir depth k files []
  simpa [lookupD] using this

theorem nodup_keys_foldlPush (key : Nat → String) (f : PreparedFile) :
    ∀ (ds : List Nat) (m : List (String × List PreparedFile)),
      (m.map Prod.fst).Nodup →
      (((ds.foldl (fun m d => mapPush m (key d) f) m)).map Prod.fst).Nodup := by
  intro ds
  induction ds with
  | nil => intro m h; simpa using h
  | cons d ds ih =>
    intro m h
    simp only [List.foldl_cons]
    exact ih _ (nodup_keys_mapPush m (key d) f h)

theorem nodup_keys_build (files : List PreparedFile) (srcDir : String) (depth : Int) :
    ((buildDirectoryMap files srcDir depth).map Prod.fst).Nodup := by
  rw [buildDirectoryMap_eq]
  have aux : ∀ (fl : List PreparedFile) (m : List (String × List PreparedFile)),
      (m.map Prod.fst).Nodup →
      ((fl.foldl (accumulateFile srcDir depth) m).map Prod.fst).Nodup := by
    intro fl
    induction fl with
    | nil => intro m h; simpa using h
    | cons x xs ih =>
      intro m h
      simp only [List.foldl_cons]
      exact ih _ (nodup_keys_foldlPush _ x _ m h)
  exact aux files [] (by simp)

/-! ## Lemmas: the chunk list -/

/-- The surviving dirPaths, `validDirectories.map(([p]) => p)` (line 128/138). -/
def validKeys (files : List PreparedFile) (srcDir : String) (depth : Int)
    (minFilesPerChunk : Nat) : List String :=
  (validDirectories files srcDir depth minFilesPerChunk).map Prod.fst

theorem organizeFilesByDepth_eq (files : List PreparedFile) (srcDir : String)
    (depth : Int) (minFilesPerChunk : Nat) :
    organizeFilesByDepth files srcDir depth minFilesPerChunk =
      (validDirectories files srcDir depth minFilesPerChunk).map
        (fun kv => chunkFor (validKeys files srcDir depth minFilesPerChunk) kv.1 kv.2) := rfl

theorem mem_validDirectories_iff (files : List PreparedFile) (srcDir : String)
    (depth : Int) (minFilesPerChunk : Nat) (k : String) (fs : List PreparedFile) :
    (k, fs) ∈ validDirectories files srcDir depth minFilesPerChunk ↔
      (k, fs) ∈ buildDirectoryMap files srcDir depth ∧
        (if k = "" then 0 < fs.length else minFilesPerChunk ≤ fs.length) := by
  simp only [validDirectories, List.mem_filter]
  by_cases hk : k = "" <;> simp [hk]

theorem nodup_validKeys (files : List PreparedFile) (srcDir : String)
    (depth : Int) (minFilesPerChunk : Nat) :
    (validKeys files srcDir depth minFilesPerChunk).Nodup :=
  List.Nodup.sublist (List.Sublist.map Prod.fst (List.filter_sublist _))
    (nodup_keys_build files srcDir depth)

theorem mem_org_iff (files : List PreparedFile) (srcDir : String) (depth : Int)
    (minFilesPerChunk : Nat) (C : DirectoryChunk) :
    C ∈ organizeFilesByDepth files srcDir depth minFilesPerChunk ↔
      ∃ kv ∈ validDirectories files srcDir depth minFilesPerChunk,
        C = chunkFor (validKeys files srcDir depth minFilesPerChunk) kv.1 kv.2 := by
  rw [organizeFilesByDepth_eq]
  simp only [List.mem_map]
  constructor
  · rintro ⟨kv, hkv, hC⟩
    exact ⟨kv, hkv, hC.symm⟩
  · rintro ⟨kv, hkv, hC⟩
    exact ⟨kv, hkv, hC.symm⟩

theorem entry_unique (m : List (String × List PreparedFile))
    (hnd : (m.map Prod.fst).Nodup) (k : String) (fs fs' : List PreparedFile)
    (h1 : (k, fs) ∈ m) (h2 : (k, fs') ∈ m) : fs = fs' := by
  rw [← lookupD_eq_of_mem m k fs hnd h1, ← lookupD_eq_of_mem m k fs' hnd h2]

theorem filter_key_eq_singleton (m : List (String × List PreparedFile))
    (hnd : (m.map Prod.fst).Nodup) (k : String) (fs : List PreparedFile)
    (hm : (k, fs) ∈ m) : m.filter (fun kv => kv.1 == k) = [(k, fs)] := by
  induction m with
  | nil => simp at hm
  | cons kv₀ rest ih =>
    obtain ⟨k₀, fs₀⟩ := kv₀
    simp only [List.map_cons, List.nodup_cons] at hnd
    rcases List.mem_cons.mp hm with h | h
    · cases h
      rw [List.filter_cons_of_pos (by simp)]
      have hrest : rest.filter (fun kv => kv.1 == k) = [] := by
        rw [List.filter_eq_nil_iff]
        intro kv hkv
        simp only [beq_iff_eq]
        intro he
        exact hnd.1 (he ▸ List.mem_map_of_mem Prod.fst hkv)
      rw [hrest]
    · have hk0 : k₀ ≠ k := fun he => hnd.1 (he ▸ List.mem_map_of_mem Prod.fst h)
      rw [List.filter_cons_of_neg (by simp [hk0])]
      exact ih hnd.2 h

theorem mem_valid_of_lookupD (files : List PreparedFile) (srcDir : String)
    (depth : Int) (minFilesPerChunk : Nat) (k : String)
    (hne : lookupD (buildDirectoryMap files srcDir depth) k ≠ [])
    (hpred : if k = "" then 0 < (lookupD (buildDirectoryMap files srcDir depth) k).length
      else minFilesPerChunk ≤ (lookupD (buildDirectoryMap files srcDir depth) k).length) :
    (k, lookupD (buildDirectoryMap files srcDir depth) k) ∈
      validDirectories files srcDir depth minFilesPerChunk := by
  rw [mem_validDirectories_iff]
  exact ⟨mem_of_lookupD _ k (mem_keys_of_lookupD_ne_nil _ k hne), hpred⟩

/-! ## Lemmas: the level loop -/

theorem mem_levelsFor_iff (depth : Int) (n : Nat) (d : Nat) :
    d ∈ levelsFor depth n ↔ 1 ≤ d ∧ (d : Int) ≤ min depth ((n : Int) + 1) := by
  simp only [levelsFor, List.mem_map, List.mem_range]
  constructor
  · rintro ⟨i, hi, rfl⟩
    omega
  · rintro ⟨h1, h2⟩
    exact ⟨d - 1, by omega, by omega⟩

theorem levelsFor_one (n : Nat) : levelsFor 1 n = [1] := by
  have h : (min (1 : Int) ((n : Int) + 1)).toNat = 1 := by omega
  have h1 : List.range 1 = [0] := rfl
  simp [levelsFor, h, h1]

theorem levelsFor_nonpos (depth : Int) (n : Nat) (h : depth < 1) :
    levelsFor depth n = [] := by
  have h0 : (min depth ((n : Int) + 1)).toNat = 0 := by omega
  simp [levelsFor, h0]

theorem accumulateFile_depth_one (srcDir : String)
    (m : List (String × List PreparedFile)) (file : PreparedFile) :
    accumulateFile srcDir 1 m file = mapPush m "" file := by
  simp [accumulateFile, levelsFor_one, dirPathForLevel]

theorem accumulateFile_nonpos (srcDir : String) (depth : Int) (h : depth < 1)
    (m : List (String × List PreparedFile)) (file : PreparedFile) :
    accumulateFile srcDir depth m file = m := by
  simp [accumulateFile, levelsFor_nonpos depth _ h]

theorem buildDirectoryMap_depth_one (files : List PreparedFile) (srcDir : String)
    (h : files ≠ []) : buildDirectoryMap files srcDir 1 = [("", files)] := by
  rw [buildDirectoryMap_eq]
  obtain ⟨x, xs, rfl⟩ := List.exists_cons_of_ne_nil h
  have aux : ∀ (ys : List PreparedFile) (acc : List PreparedFile),
      ys.foldl (accumulateFile srcDir 1) [("", acc)] = [("", acc ++ ys)] := by
    intro ys
    induction ys with
    | nil => intro acc; simp
    | cons y ys ih =>
      intro acc
      have hpush : mapPush [("", acc)] "" y = [("", acc ++ [y])] := by simp [mapPush]
      simp only [List.foldl_cons, accumulateFile_depth_one, hpush, ih]
      simp
  have h0 : mapPush ([] : List (String × List PreparedFile)) "" x = [("", [x])] := rfl
  simp only [List.foldl_cons, accumulateFile_depth_one, h0, aux xs [x]]
  simp

/-! ## Claim theorems -/

/-- C3: for the five documents `guide/a.md`, `guide/b.md`, `api/a.md`,
`api/b.md`, `index.md` with `depth = 2` and `minFilesPerChunk = 2`,
`organizeFilesByDepth` returns exactly three chunks: the root chunk `""` with
all five documents, `guide` with its two documents (parent `""`, siblings
`["api"]`), and `api` with its two documents (parent `""`, siblings
`["guide"]`). -/
theorem c3_depth_two_example :
    organizeFilesByDepth
      [⟨"guide/a.md", "GA"⟩, ⟨"guide/b.md", "GB"⟩, ⟨"api/a.md", "AA"⟩,
        ⟨"api/b.md", "AB"⟩, ⟨"index.md", "IX"⟩] "" 2 2 =
      [⟨"", [⟨"guide/a.md", "GA"⟩, ⟨"guide/b.md", "GB"⟩, ⟨"api/a.md", "AA"⟩,
          ⟨"api/b.md", "AB"⟩, ⟨"index.md", "IX"⟩], 1, "", [], []⟩,
        ⟨"guide", [⟨"guide/a.md", "GA"⟩, ⟨"guide/b.md", "GB"⟩], 2, "", ["api"], []⟩,
        ⟨"api", [⟨"api/a.md", "AA"⟩, ⟨"api/b.md", "AB"⟩], 2, "", ["guide"], []⟩] := by
  decide

/-- C4: for every non-empty document list, every source directory and every
minimum chunk size, depth 1 yields exactly one chunk: the root chunk `""`
holding every input document. -/
theorem c4_depth_one_single_root_chunk (files : List PreparedFile) (srcDir : String)
    (minFilesPerChunk : Nat) (h : files ≠ []) :
    organizeFilesByDepth files srcDir 1 minFilesPerChunk =
      [⟨"", files, 1, "", [], []⟩] := by
  have hb := buildDirectoryMap_depth_one files srcDir h
  have hlen : 0 < files.length := List.length_pos.mpr h
  have hvd : validDirectories files srcDir 1 minFilesPerChunk = [("", files)] := by
    simp [validDirectories, hb, hlen]
  rw [organizeFilesByDepth_eq, hvd]
  simp only [validKeys, hvd]
  simp [chunkFor, depthLevelOf, parentOf, siblingPred, childPred]

/-- Witness for C4 at a concrete input. -/
theorem c4_witness :
    ([⟨"guide/a.md", "A"⟩] : List PreparedFile) ≠ [] ∧
      organizeFilesByDepth [⟨"guide/a.md", "A"⟩] "docs" 1 5 =
        [⟨"", [⟨"guide/a.md", "A"⟩], 1, "", [], []⟩] :=
  ⟨by decide, c4_depth_one_single_root_chunk [⟨"guide/a.md", "A"⟩] "docs" 5 (by decide)⟩

/-- C9 counterexample: at the Depth Chunker itself, `depth = 0` does not
behave like `depth = 1`: it yields no chunks at all. -/
theorem c9_counterexample_depth_zero :
    organizeFilesByDepth [⟨"a.md", "A"⟩] "" 0 2 ≠
      organizeFilesByDepth [⟨"a.md", "A"⟩] "" 1 2 := by
  decide

/-- C9 (amended): running the Depth Chunker with any `depth < 1` is not fatal
but returns the empty chunk list, which coincides with the depth-1 result only
for an empty document list (the `settings.depth || 1` coercion at the call
site in `src/index.ts` rescues only `depth = 0`). -/
theorem c9_amended_nonpos_depth_no_chunks (files : List PreparedFile)
    (srcDir : String) (depth : Int) (minFilesPerChunk : Nat) (h : depth < 1) :
    organizeFilesByDepth files srcDir depth minFilesPerChunk = [] := by
  have aux : ∀ (fl : List PreparedFile) (m : List (String × List PreparedFile)),
      fl.foldl (accumulateFile srcDir depth) m = m := by
    intro fl
    induction fl with
    | nil => intro m; rfl
    | cons x xs ih =>
      intro m
      simp [List.foldl_cons, accumulateFile_nonpos srcDir depth h, ih]
  have hb : buildDirectoryMap files srcDir depth = [] := by
    rw [buildDirectoryMap_eq, aux]
  simp [organizeFilesByDepth_eq, validDirectories, hb]

/-- Witness for the amended C9 at a concrete input. -/
theorem c9_amended_witness :
    (-3 : Int) < 1 ∧ organizeFilesByDepth [⟨"a.md", "A"⟩] "" (-3) 2 = [] :=
  ⟨by decide, c9_amended_nonpos_depth_no_chunks [⟨"a.md", "A"⟩] "" (-3) 2 (by decide)⟩

theorem root_mem_filePrefixes (srcDir : String) (depth : Int) (f : PreparedFile)
    (hdepth : 1 ≤ depth) : "" ∈ filePrefixes srcDir depth f := by
  simp only [filePrefixes, List.mem_map]
  refine ⟨1, ?_, by simp [dirPathForLevel]⟩
  rw [mem_levelsFor_iff]
  omega

/-- C1: cumulative inclusion. Every document lands in the root chunk; for
every level `d` with `2 ≤ d ≤ min(depth, k+1)` (where `k` is the number of
containing-directory segments), every surviving chunk whose `dirPath` is the
`d-1`-segment prefix contains the document; and no document is contained
exclusively in a single non-root chunk (whenever a non-root chunk holds it,
so does a second chunk, the root one). -/
theorem c1_cumulative_inclusion (files : List PreparedFile) (srcDir : String)
    (depth : Int) (minFilesPerChunk : Nat) (hdepth : 1 ≤ depth)
    (hmin : 1 ≤ minFilesPerChunk) (f : PreparedFile) (hf : f ∈ files) :
    (∃ C ∈ organizeFilesByDepth files srcDir depth minFilesPerChunk,
        C.dirPath = "" ∧ f ∈ C.files) ∧
    (∀ d : Nat, 2 ≤ d → (d : Int) ≤ min depth (((fileDirParts srcDir f).length : Int) + 1) →
        ∀ C ∈ organizeFilesByDepth files srcDir depth minFilesPerChunk,
          C.dirPath = joinSlash ((fileDirParts srcDir f).take (d - 1)) → f ∈ C.files) ∧
    (∀ C ∈ organizeFilesByDepth files srcDir depth minFilesPerChunk,
        C.dirPath ≠ "" → f ∈ C.files →
        ∃ C' ∈ organizeFilesByDepth files srcDir depth minFilesPerChunk,
          C' ≠ C ∧ f ∈ C'.files) := by
  have hroot : ∃ C ∈ organizeFilesByDepth files srcDir depth minFilesPerChunk,
      C.dirPath = "" ∧ f ∈ C.files := by
    have hmem : f ∈ lookupD (buildDirectoryMap files srcDir depth) "" :=
      mem_lookupD_build files srcDir depth f "" hf
        (root_mem_filePrefixes srcDir depth f hdepth)
    have hne : lookupD (buildDirectoryMap files srcDir depth) "" ≠ [] :=
      List.ne_nil_of_mem hmem
    have hvalid : ("", lookupD (buildDirectoryMap files srcDir depth) "") ∈
        validDirectories files srcDir depth minFilesPerChunk := by
      apply mem_valid_of_lookupD files srcDir depth minFilesPerChunk "" hne
      simp only [if_pos rfl]
      exact List.length_pos.mpr hne
    refine ⟨chunkFor (validKeys files srcDir depth minFilesPerChunk) ""
      (lookupD (buildDirectoryMap files srcDir depth) ""), ?_, rfl, hmem⟩
    rw [mem_org_iff]
    exact ⟨_, hvalid, rfl⟩
  refine ⟨hroot, ?_, ?_⟩
  · intro d hd2 hdle C hC hCdir
    rw [mem_org_iff] at hC
    obtain ⟨⟨k, fs⟩, hkv, rfl⟩ := hC
    have hk : k = joinSlash ((fileDirParts srcDir f).take (d - 1)) := hCdir
    have hbuild : (k, fs) ∈ buildDirectoryMap files srcDir depth :=
      ((mem_validDirectories_iff files srcDir depth minFilesPerChunk k fs).mp hkv).1
    have hfs : lookupD (buildDirectoryMap files srcDir depth) k = fs :=
      lookupD_eq_of_mem _ k fs (nodup_keys_build files srcDir depth) hbuild
    have hkpre : k ∈ filePrefixes srcDir depth f := by
      simp only [filePrefixes, List.mem_map]
      refine ⟨d, ?_, ?_⟩
      · rw [mem_levelsFor_iff]
        omega
      · rw [dirPathForLevel, if_neg (by omega), hk]
    have : f ∈ lookupD (buildDirectoryMap files srcDir depth) k :=
      mem_lookupD_build files srcDir depth f k hf hkpre
    rw [hfs] at this
    exact this
  · intro C hC hCne hfC
    obtain ⟨C₀, hC₀, hC₀dir, hfC₀⟩ := hroot
    refine ⟨C₀, hC₀, ?_, hfC₀⟩
    intro he
    rw [he] at hC₀dir
    exact hCne hC₀dir

/-- Witness for C1 at a concrete input (document `guide/advanced/x.md` with
depth 3). -/
theorem c1_witness :
    (1 : Int) ≤ 3 ∧ 1 ≤ 1 ∧
      (⟨"guide/advanced/x.md", "X"⟩ : PreparedFile) ∈
        ([⟨"guide/advanced/x.md", "X"⟩, ⟨"guide/advanced/y.md", "Y"⟩] : List PreparedFile) ∧
      ((∃ C ∈ organizeFilesByDepth
            [⟨"guide/advanced/x.md", "X"⟩, ⟨"guide/advanced/y.md", "Y"⟩] "" 3 1,
          C.dirPath = "" ∧ (⟨"guide/advanced/x.md", "X"⟩ : PreparedFile) ∈ C.files) ∧
        (∀ d : Nat, 2 ≤ d →
          (d : Int) ≤ min 3 (((fileDirParts "" (⟨"guide/advanced/x.md", "X"⟩ : PreparedFile)).length : Int) + 1) →
          ∀ C ∈ organizeFilesByDepth
              [⟨"guide/advanced/x.md", "X"⟩, ⟨"guide/advanced/y.md", "Y"⟩] "" 3 1,
            C.dirPath =
              joinSlash ((fileDirParts "" (⟨"guide/advanced/x.md", "X"⟩ : PreparedFile)).take (d - 1)) →
            (⟨"guide/advanced/x.md", "X"⟩ : PreparedFile) ∈ C.files) ∧
        (∀ C ∈ organizeFilesByDepth
            [⟨"guide/advanced/x.md", "X"⟩, ⟨"guide/advanced/y.md", "Y"⟩] "" 3 1,
          C.dirPath ≠ "" → (⟨"guide/advanced/x.md", "X"⟩ : PreparedFile) ∈ C.files →
          ∃ C' ∈ organizeFilesByDepth
              [⟨"guide/advanced/x.md", "X"⟩, ⟨"guide/advanced/y.md", "Y"⟩] "" 3 1,
            C' ≠ C ∧ (⟨"guide/advanced/x.md", "X"⟩ : PreparedFile) ∈ C'.files)) :=
  ⟨by decide, by decide, by decide,
    c1_cumulative_inclusion
      [⟨"guide/advanced/x.md", "X"⟩, ⟨"guide/advanced/y.md", "Y"⟩] "" 3 1
      (by decide) (by decide) ⟨"guide/advanced/x.md", "X"⟩ (by decide)⟩

/-- C2: the filtering invariant. Every returned chunk meets its bound (≥ 1
file for root, ≥ `minFilesPerChunk` files otherwise); every accumulated map
entry that meets the applicable bound becomes exactly one chunk (with exactly
its accumulated files); entries below the bound yield no chunk. -/
theorem c2_chunk_existence_invariant (files : List PreparedFile) (srcDir : String)
    (depth : Int) (minFilesPerChunk : Nat) :
    (∀ C ∈ organizeFilesByDepth files srcDir depth minFilesPerChunk,
        (C.dirPath = "" → 1 ≤ C.files.length) ∧
        (C.dirPath ≠ "" → minFilesPerChunk ≤ C.files.length)) ∧
    (∀ (k : String) (fs : List PreparedFile),
        (k, fs) ∈ buildDirectoryMap files srcDir depth →
        ((if k = "" then 0 < fs.length else minFilesPerChunk ≤ fs.length) →
          ((organizeFilesByDepth files srcDir depth minFilesPerChunk).filter
              (fun C => C.dirPath == k)).length = 1 ∧
          ∀ C ∈ organizeFilesByDepth files srcDir depth minFilesPerChunk,
            C.dirPath = k → C.files = fs) ∧
        (¬(if k = "" then 0 < fs.length else minFilesPerChunk ≤ fs.length) →
          ∀ C ∈ organizeFilesByDepth files srcDir depth minFilesPerChunk,
            C.dirPath ≠ k)) := by
  have hndb := nodup_keys_build files srcDir depth
  have hndv : ((validDirectories files srcDir depth minFilesPerChunk).map Prod.fst).Nodup :=
    nodup_validKeys files srcDir depth minFilesPerChunk
  constructor
  · intro C hC
    rw [mem_org_iff] at hC
    obtain ⟨⟨k, fs⟩, hkv, rfl⟩ := hC
    have hpred := ((mem_validDirectories_iff files srcDir depth minFilesPerChunk k fs).mp hkv).2
    constructor
    · intro hk
      have hk2 : k = "" := hk
      rw [if_pos hk2] at hpred
      simpa [chunkFor] using hpred
    · intro hk
      have hk2 : k ≠ "" := hk
      rw [if_neg hk2] at hpred
      simpa [chunkFor] using hpred
  · intro k fs hmem
    constructor
    · intro hpred
      have hvalid : (k, fs) ∈ validDirectories files srcDir depth minFilesPerChunk :=
        (mem_validDirectories_iff files srcDir depth minFilesPerChunk k fs).mpr ⟨hmem, hpred⟩
      constructor
      · rw [organizeFilesByDepth_eq, List.filter_map]
        have hcomp :
            ((fun C => C.dirPath == k) ∘
              fun kv => chunkFor (validKeys files srcDir depth minFilesPerChunk) kv.1 kv.2) =
            fun kv : String × List PreparedFile => kv.1 == k := rfl
        rw [hcomp, filter_key_eq_singleton _ hndv k fs hvalid]
        simp
      · intro C hC hCk
        rw [mem_org_iff] at hC
        obtain ⟨⟨k', fs'⟩, hkv', rfl⟩ := hC
        have hk' : k' = k := hCk
        subst hk'
        have hmem' := ((mem_validDirectories_iff files srcDir depth minFilesPerChunk k' fs').mp hkv').1
        show fs' = fs
        exact entry_unique _ hndb k' fs' fs hmem' hmem
    · intro hpred C hC hCk
      rw [mem_org_iff] at hC
      obtain ⟨⟨k', fs'⟩, hkv', rfl⟩ := hC
      have hk' : k' = k := hCk
      subst hk'
      obtain ⟨hmem', hpred'⟩ :=
        (mem_validDirectories_iff files srcDir depth minFilesPerChunk k' fs').mp hkv'
      have : fs' = fs := entry_unique _ hndb k' fs' fs hmem' hmem
      subst this
      exact hpred hpred'

/-- Witness for C2 at a concrete input. -/
theorem c2_witness :
    ((⟨"guide", [⟨"guide/a.md", "GA"⟩]⟩ : String × List PreparedFile) ∈
        buildDirectoryMap [⟨"guide/a.md", "GA"⟩, ⟨"index.md", "IX"⟩] "" 2) ∧
      (¬(if "guide" = "" then 0 < ([⟨"guide/a.md", "GA"⟩] : List PreparedFile).length
          else 2 ≤ ([⟨"guide/a.md", "GA"⟩] : List PreparedFile).length) →
        ∀ C ∈ organizeFilesByDepth [⟨"guide/a.md", "GA"⟩, ⟨"index.md", "IX"⟩] "" 2 2,
          C.dirPath ≠ "guide") :=
  ⟨by decide,
    ((c2_chunk_existence_invariant [⟨"guide/a.md", "GA"⟩, ⟨"index.md", "IX"⟩] "" 2 2).2
      "guide" [⟨"guide/a.md", "GA"⟩] (by decide)).2⟩

theorem siblingPred_eq_true_iff (dirPath p : String) :
    siblingPred dirPath p = true ↔
      p ≠ dirPath ∧ parentOf p = parentOf dirPath ∧
        depthLevelOf p = depthLevelOf dirPath := by
  by_cases h : p = dirPath
  · simp [siblingPred, h]
  · simp [siblingPred, h]

theorem childPred_eq_true_iff (dirPath p : String) :
    childPred dirPath p = true ↔ p ≠ "" ∧ dirPath ≠ "" ∧ parentOf p = dirPath := by
  by_cases hp : p = ""
  · simp [childPred, hp]
  · by_cases hd : dirPath = ""
    · simp [childPred, hp, hd]
    · simp [childPred, hp, hd]

/-- C5: the sibling relation is well-formed. If one returned chunk lists
another's `dirPath` among its siblings, the two share `parentPath` and
`depth`, each lists the other as a sibling, and neither lists the other as a
child. -/
theorem c5_sibling_invariant (files : List PreparedFile) (srcDir : String)
    (depth : Int) (minFilesPerChunk : Nat) (C C' : DirectoryChunk)
    (hC : C ∈ organizeFilesByDepth files srcDir depth minFilesPerChunk)
    (hC' : C' ∈ organizeFilesByDepth files srcDir depth minFilesPerChunk)
    (hsib : C'.dirPath ∈ C.siblingPaths) :
    C.parentPath = C'.parentPath ∧ C.depth = C'.depth ∧
      C.dirPath ∈ C'.siblingPaths ∧ C'.dirPath ∉ C.childPaths ∧
      C.dirPath ∉ C'.childPaths := by
  rw [mem_org_iff] at hC hC'
  obtain ⟨⟨k, fs⟩, hkv, rfl⟩ := hC
  obtain ⟨⟨k', fs'⟩, hkv', rfl⟩ := hC'
  have hkeys : k ∈ validKeys files srcDir depth minFilesPerChunk :=
    List.mem_map_of_mem Prod.fst hkv
  simp only [chunkFor, List.mem_filter] at hsib ⊢
  obtain ⟨hk'keys, hpred⟩ := hsib
  rw [siblingPred_eq_true_iff] at hpred
  obtain ⟨hne, hpar, hdep⟩ := hpred
  refine ⟨hpar.symm, hdep.symm, ⟨hkeys, ?_⟩, ?_, ?_⟩
  · rw [siblingPred_eq_true_iff]
    exact ⟨Ne.symm hne, hpar.symm, hdep.symm⟩
  · rintro ⟨-, hchild⟩
    rw [childPred_eq_true_iff] at hchild
    obtain ⟨-, hkne, hpc⟩ := hchild
    rw [hpar] at hpc
    exact parentOf_ne_self k hkne hpc
  · rintro ⟨-, hchild⟩
    rw [childPred_eq_true_iff] at hchild
    obtain ⟨hkne, hk'ne, hpc⟩ := hchild
    rw [hpc] at hpar
    exact parentOf_ne_self k' hk'ne hpar

/-- Witness for C5 at a concrete input (the `guide`/`api` sibling pair). -/
theorem c5_witness :
    (⟨"guide", [⟨"guide/a.md", "GA"⟩, ⟨"guide/b.md", "GB"⟩], 2, "", ["api"], []⟩ :
        DirectoryChunk) ∈
      organizeFilesByDepth
        [⟨"guide/a.md", "GA"⟩, ⟨"guide/b.md", "GB"⟩, ⟨"api/a.md", "AA"⟩,
          ⟨"api/b.md", "AB"⟩] "" 2 2 ∧
    (⟨"api", [⟨"api/a.md", "AA"⟩, ⟨"api/b.md", "AB"⟩], 2, "", ["guide"], []⟩ :
        DirectoryChunk) ∈
      organizeFilesByDepth
        [⟨"guide/a.md", "GA"⟩, ⟨"guide/b.md", "GB"⟩, ⟨"api/a.md", "AA"⟩,
          ⟨"api/b.md", "AB"⟩] "" 2 2 ∧
    ((⟨"guide", [⟨"guide/a.md", "GA"⟩, ⟨"guide/b.md", "GB"⟩], 2, "", ["api"], []⟩ :
          DirectoryChunk).parentPath =
        (⟨"api", [⟨"api/a.md", "AA"⟩, ⟨"api/b.md", "AB"⟩], 2, "", ["guide"], []⟩ :
          DirectoryChunk).parentPath ∧
      (⟨"guide", [⟨"guide/a.md", "GA"⟩, ⟨"guide/b.md", "GB"⟩], 2, "", ["api"], []⟩ :
          DirectoryChunk).depth =
        (⟨"api", [⟨"api/a.md", "AA"⟩, ⟨"api/b.md", "AB"⟩], 2, "", ["guide"], []⟩ :
          DirectoryChunk).depth ∧
      (⟨"guide", [⟨"guide/a.md", "GA"⟩, ⟨"guide/b.md", "GB"⟩], 2, "", ["api"], []⟩ :
          DirectoryChunk).dirPath ∈
        (⟨"api", [⟨"api/a.md", "AA"⟩, ⟨"api/b.md", "AB"⟩], 2, "", ["guide"], []⟩ :
          DirectoryChunk).siblingPaths ∧
      (⟨"api", [⟨"api/a.md", "AA"⟩, ⟨"api/b.md", "AB"⟩], 2, "", ["guide"], []⟩ :
          DirectoryChunk).dirPath ∉
        (⟨"guide", [⟨"guide/a.md", "GA"⟩, ⟨"guide/b.md", "GB"⟩], 2, "", ["api"], []⟩ :
          DirectoryChunk).childPaths ∧
      (⟨"guide", [⟨"guide/a.md", "GA"⟩, ⟨"guide/b.md", "GB"⟩], 2, "", ["api"], []⟩ :
          DirectoryChunk).dirPath ∉
        (⟨"api", [⟨"api/a.md", "AA"⟩, ⟨"api/b.md", "AB"⟩], 2, "", ["guide"], []⟩ :
          DirectoryChunk).childPaths) :=
  ⟨by decide, by decide,
    c5_sibling_invariant
      [⟨"guide/a.md", "GA"⟩, ⟨"guide/b.md", "GB"⟩, ⟨"api/a.md", "AA"⟩,
        ⟨"api/b.md", "AB"⟩] "" 2 2
      ⟨"guide", [⟨"guide/a.md", "GA"⟩, ⟨"guide/b.md", "GB"⟩], 2, "", ["api"], []⟩
      ⟨"api", [⟨"api/a.md", "AA"⟩, ⟨"api/b.md", "AB"⟩], 2, "", ["guide"], []⟩
      (by decide) (by decide) (by decide)⟩

theorem length_filter_le_of_imp {α : Type} (l : List α) (p q : α → Bool)
    (h : ∀ a ∈ l, p a = true → q a = true) :
    (l.filter p).length ≤ (l.filter q).length := by
  induction l with
  | nil => simp
  | cons x xs ih =>
    have ih2 := ih (fun a ha hp => h a (List.mem_cons_of_mem x ha) hp)
    by_cases hp : p x = true
    · rw [List.filter_cons_of_pos hp,
        List.filter_cons_of_pos (h x (List.mem_cons_self x xs) hp)]
      simpa using ih2
    · rw [List.filter_cons_of_neg (by simpa using hp)]
      by_cases hq : q x = true
      · rw [List.filter_cons_of_pos hq]
        exact le_trans ih2 (by simp)
      · rw [List.filter_cons_of_neg (by simpa using hq)]
        exact ih2

theorem dot_mem_filePrefixes (srcDir : String) (depth : Int) (f : PreparedFile)
    (hdepth : 2 ≤ depth) (hparts : fileDirParts srcDir f = ["."]) :
    "." ∈ filePrefixes srcDir depth f := by
  simp only [filePrefixes, List.mem_map, hparts]
  refine ⟨2, ?_, by decide⟩
  rw [mem_levelsFor_iff]
  simp only [List.length_singleton]
  omega

/-- C10: a document sitting directly in the source root has containing
directory `.` after normalization, so with `depth ≥ 2` it is accumulated both
under the root prefix `""` and under the literal prefix `"."`; when at least
`minFilesPerChunk` documents sit directly in the root, the `"."` chunk
survives filtering as a chunk distinct from the root chunk, with depth level 2
and `parentPath = ""`. -/
theorem c10_root_level_dot_chunk (files : List PreparedFile) (srcDir : String)
    (depth : Int) (minFilesPerChunk : Nat) (hdepth : 2 ≤ depth)
    (hmin : 1 ≤ minFilesPerChunk)
    (hcount : minFilesPerChunk ≤
      (files.filter (fun f => decide (fileDirParts srcDir f = ["."]))).length) :
    (∀ f ∈ files, fileDirParts srcDir f = ["."] →
        f ∈ lookupD (buildDirectoryMap files srcDir depth) "" ∧
        f ∈ lookupD (buildDirectoryMap files srcDir depth) ".") ∧
    ∃ C ∈ organizeFilesByDepth files srcDir depth minFilesPerChunk,
        C.dirPath = "." ∧ C.depth = 2 ∧ C.parentPath = "" := by
  have hdepth1 : (1 : Int) ≤ depth := by omega
  constructor
  · intro f hf hparts
    exact ⟨mem_lookupD_build files srcDir depth f "" hf
        (root_mem_filePrefixes srcDir depth f hdepth1),
      mem_lookupD_build files srcDir depth f "." hf
        (dot_mem_filePrefixes srcDir depth f hdepth hparts)⟩
  · have hlen : minFilesPerChunk ≤
        (lookupD (buildDirectoryMap files srcDir depth) ".").length := by
      calc minFilesPerChunk
          ≤ (files.filter (fun f => decide (fileDirParts srcDir f = ["."]))).length :=
            hcount
        _ ≤ (files.filter (fun f => decide ("." ∈ filePrefixes srcDir depth f))).length := by
            apply length_filter_le_of_imp
            intro a ha hp
            simp only [decide_eq_true_eq] at hp ⊢
            exact dot_mem_filePrefixes srcDir depth a hdepth hp
        _ ≤ _ := count_le_length_lookupD_build files srcDir depth "."
    have hne : lookupD (buildDirectoryMap files srcDir depth) "." ≠ [] := by
      apply List.ne_nil_of_length_pos
      omega
    have hvalid : (".", lookupD (buildDirectoryMap files srcDir depth) ".") ∈
        validDirectories files srcDir depth minFilesPerChunk := by
      apply mem_valid_of_lookupD files srcDir depth minFilesPerChunk "." hne
      rw [if_neg (by decide)]
      exact hlen
    refine ⟨chunkFor (validKeys files srcDir depth minFilesPerChunk) "."
      (lookupD (buildDirectoryMap files srcDir depth) "."), ?_, rfl, ?_, ?_⟩
    · rw [mem_org_iff]
      exact ⟨_, hvalid, rfl⟩
    · show depthLevelOf "." = 2
      decide
    · show parentOf "." = ""
      decide

/-- Witness for C10 at a concrete input (two documents directly in the root). -/
theorem c10_witness :
    (2 : Int) ≤ 2 ∧ 1 ≤ 2 ∧
      2 ≤ (([⟨"a.md", "A"⟩, ⟨"b.md", "B"⟩] : List PreparedFile).filter
        (fun f => decide (fileDirParts "" f = ["."]))).length ∧
      ((∀ f ∈ ([⟨"a.md", "A"⟩, ⟨"b.md", "B"⟩] : List PreparedFile),
          fileDirParts "" f = ["."] →
          f ∈ lookupD (buildDirectoryMap [⟨"a.md", "A"⟩, ⟨"b.md", "B"⟩] "" 2) "" ∧
          f ∈ lookupD (buildDirectoryMap [⟨"a.md", "A"⟩, ⟨"b.md", "B"⟩] "" 2) ".") ∧
        ∃ C ∈ organizeFilesByDepth [⟨"a.md", "A"⟩, ⟨"b.md", "B"⟩] "" 2 2,
          C.dirPath = "." ∧ C.depth = 2 ∧ C.parentPath = "") :=
  ⟨by decide, by decide, by decide,
    c10_root_level_dot_chunk [⟨"a.md", "A"⟩, ⟨"b.md", "B"⟩] "" 2 2
      (by decide) (by decide) (by decide)⟩

/-- C6: the Navigation Resolver returns the empty string (not a heading or
whitespace) whenever no link line is produced: no parent line (because
`parentPath = currentDirPath` or the current directory is root) and empty
sibling and child lists. -/
theorem c6_empty_navigation (options : NavigationOptions)
    (hpar : options.parentPath = options.currentDirPath ∨ options.currentDirPath = "")
    (hsib : options.siblingPaths = []) (hch : options.childPaths = []) :
    generateNavigationSection options = "" := by
  have hcond : ¬(options.parentPath ≠ options.currentDirPath ∧
      options.currentDirPath ≠ "") := by
    rcases hpar with h | h
    · intro hc
      exact hc.1 h
    · intro hc
      exact hc.2 h
  simp [generateNavigationSection, hsib, hch, hcond]

/-- Witness for C6 at a concrete input. -/
theorem c6_witness :
    generateNavigationSection ⟨"docs", "docs", [], [], none, "", false⟩ = "" :=
  c6_empty_navigation ⟨"docs", "docs", [], [], none, "", false⟩ (Or.inl rfl) rfl rfl

theorem parentLinkLine_eq_spec (domain : Option String) (pp : String) :
    parentLinkLine domain pp = specParentLine domain pp := rfl

theorem relLinkLine_eq_spec (domain : Option String) (t : String) :
    relLinkLine domain t = specSiblingChildLine domain t := by
  cases domain with
  | none =>
    simp only [relLinkLine, specSiblingChildLine, specNavTitle, basename,
      String.append_assoc]
  | some d =>
    simp only [relLinkLine, specSiblingChildLine, specNavTitle, basename,
      String.append_assoc]

/-- C7: rendering refinement for the Navigation Resolver. The output is the
newline join of exactly the lines prescribed by the spec: a parent line iff
`parentPath ≠ currentDirPath` and the current directory is non-root, then one
line per sibling and one per child in the supplied order, with the spec's
titles (capitalized last segment, `Documentation Overview` for a root
parent), hrefs (`{domain}/{targetDir}/llms.txt`, root parent target
`llms.txt`), and descriptions (`Parent documentation section` for the parent,
`{Title} documentation` for siblings and children); the empty line list
yields the empty string. -/
theorem c7_navigation_rendering (options : NavigationOptions) :
    generateNavigationSection options =
      if specNavLines options = [] then "" else joinNL (specNavLines options) := by
  have hrel : relLinkLine options.domain = specSiblingChildLine options.domain := by
    funext t
    exact relLinkLine_eq_spec options.domain t
  simp only [generateNavigationSection, hrel, parentLinkLine_eq_spec]
  have hs : (if options.parentPath ≠ options.currentDirPath ∧
        options.currentDirPath ≠ "" then
      [specParentLine options.domain options.parentPath] else []) ++
      options.siblingPaths.map (specSiblingChildLine options.domain) ++
      options.childPaths.map (specSiblingChildLine options.domain) =
      specNavLines options := rfl
  rw [hs]
  rcases eq_or_ne (specNavLines options) [] with h | h
  · rw [h, if_pos rfl]
    simp
  · rw [if_neg h, if_pos (List.length_pos.mpr h)]

/-! ## Lemmas: the Template Expander -/

/-- Char-level body of `expandTemplate`. -/
def expandData (vars : List (String × Option String)) (cs : List Char) : List Char :=
  match splitOnBraceCh cs with
  | [] => []
  | first :: rest => first ++ (rest.map (expandPart vars)).flatten

theorem expandTemplate_eq_data (template : String)
    (vars : List (String × Option String)) :
    expandTemplate template vars = ⟨expandData vars template.data⟩ := by
  unfold expandTemplate expandData
  cases splitOnBraceCh template.data <;> rfl

theorem expandData_append_lit (vars : List (String × Option String))
    (a r : List Char) (ha : '{' ∉ a) :
    expandData vars (a ++ r) = a ++ expandData vars r := by
  obtain ⟨s, ss, hss⟩ := List.exists_cons_of_ne_nil (splitOnCh_ne_nil '{' r)
  have h1 : splitOnCh '{' (a ++ r) = (a ++ s) :: ss :=
    splitOnCh_append_not_mem '{' a r ha s ss hss
  simp only [expandData, splitOnBraceCh, h1, hss, List.map_cons, List.flatten_cons]
  rw [List.append_assoc]

theorem takeWhile_append_stop (p : Char → Bool) :
    ∀ (a : List Char) (b : Char) (r : List Char),
      (∀ c ∈ a, p c = true) → p b = false → (a ++ b :: r).takeWhile p = a := by
  intro a
  induction a with
  | nil =>
    intro b r _ hb
    simp [List.takeWhile_cons, hb]
  | cons x xs ih =>
    intro b r ha hb
    have hx : p x = true := ha x (List.mem_cons_self x xs)
    simp [List.takeWhile_cons, hx,
      ih b r (fun c hc => ha c (List.mem_cons_of_mem x hc)) hb]

theorem expandPart_placeholder (vars : List (String × Option String))
    (n : String) (r : List Char) (hn : n.data ≠ [])
    (hw : ∀ c ∈ n.data, isWordChar c = true) :
    expandPart vars (n.data ++ '}' :: r) = (lookupVar vars n).data ++ r := by
  have hbrace : isWordChar '}' = false := by decide
  have htake : (n.data ++ '}' :: r).takeWhile isWordChar = n.data :=
    takeWhile_append_stop isWordChar n.data '}' r hw hbrace
  have hdrop : (n.data ++ '}' :: r).drop n.data.length = '}' :: r :=
    List.drop_left n.data ('}' :: r)
  simp only [expandPart, htake, hdrop]
  rw [if_neg (by simp [hn])]

theorem expandData_ph (vars : List (String × Option String)) (n : String)
    (r : List Char) (hn : n.data ≠ []) (hw : ∀ c ∈ n.data, isWordChar c = true) :
    expandData vars ('{' :: (n.data ++ '}' :: r)) =
      (lookupVar vars n).data ++ expandData vars r := by
  obtain ⟨s, ss, hss⟩ := List.exists_cons_of_ne_nil (splitOnCh_ne_nil '{' r)
  have hnb : '{' ∉ n.data := by
    intro hmem
    have := hw '{' hmem
    simp [isWordChar] at this
  have hin : splitOnCh '{' (n.data ++ '}' :: r) = (n.data ++ '}' :: s) :: ss := by
    apply splitOnCh_append_not_mem '{' n.data ('}' :: r) hnb ('}' :: s) ss
    rw [splitOnCh_cons_ne '{' '}' r (by decide) s ss hss]
  have houter : splitOnCh '{' ('{' :: (n.data ++ '}' :: r)) =
      [] :: (n.data ++ '}' :: s) :: ss := by
    rw [splitOnCh_sep_cons, hin]
  simp only [expandData, splitOnBraceCh, houter, hss, List.map_cons, List.flatten_cons]
  rw [expandPart_placeholder vars n s hn hw]
  simp [List.append_assoc]

/-- C8: spec-level correctness of the Template Expander. For every template
presented as literal runs (holding no opening brace) and `{name}`
placeholders, expansion replaces each placeholder occurrence by the
looked-up value (the empty string when the name is absent or its value
undefined) and leaves every literal run unchanged; in particular
`"# {title}\n\n{missing}"` with `title = "Foo"` expands to `"# Foo\n\n"`. -/
theorem c8_template_expansion (toks : List TemplateToken)
    (vars : List (String × Option String)) (hwf : ∀ t ∈ toks, tokenWF t = true) :
    expandTemplate (flattenTokens toks) vars = renderTokens vars toks := by
  induction toks with
  | nil => rfl
  | cons t toks ih =>
    have hts : ∀ x ∈ toks, tokenWF x = true := fun x hx => hwf x (List.mem_cons_of_mem t hx)
    have iht := ih hts
    rw [expandTemplate_eq_data] at iht
    have idata : expandData vars (flattenTokens toks).data = (renderTokens vars toks).data :=
      congrArg String.data iht
    have hwt := hwf t (List.mem_cons_self t toks)
    cases t with
    | lit s =>
      have hs : '{' ∉ s.data := by simpa [tokenWF] using hwt
      show expandTemplate (s ++ flattenTokens toks) vars = s ++ renderTokens vars toks
      rw [expandTemplate_eq_data]
      apply String.ext
      show expandData vars ((s ++ flattenTokens toks).data) = (s ++ renderTokens vars toks).data
      rw [String.data_append, String.data_append, expandData_append_lit vars s.data _ hs,
        idata]
    | ph n =>
      have hwt2 : n.data ≠ [] ∧ ∀ c ∈ n.data, isWordChar c = true := by
        simpa [tokenWF, List.all_eq_true] using hwt
      obtain ⟨hn, hw⟩ := hwt2
      show expandTemplate ("\x7b" ++ n ++ "\x7d" ++ flattenTokens toks) vars =
        lookupVar vars n ++ renderTokens vars toks
      rw [expandTemplate_eq_data]
      apply String.ext
      have hdata : ("\x7b" ++ n ++ "\x7d" ++ flattenTokens toks).data =
          '{' :: (n.data ++ '}' :: (flattenTokens toks).data) := by
        simp [String.data_append]
      show expandData vars (("\x7b" ++ n ++ "\x7d" ++ flattenTokens toks).data) =
        (lookupVar vars n ++ renderTokens vars toks).data
      rw [hdata, expandData_ph vars n _ hn hw, String.data_append, idata]

/-- Witness for C8: the claim's concrete example. -/
theorem c8_witness :
    (∀ t ∈ ([TemplateToken.lit "# ", TemplateToken.ph "title",
        TemplateToken.lit "\n\n", TemplateToken.ph "missing"] : List TemplateToken),
      tokenWF t = true) ∧
    expandTemplate "# {title}\n\n{missing}" [("title", some "Foo")] = "# Foo\n\n" := by
  constructor
  · decide
  · have h := c8_template_expansion
      [TemplateToken.lit "# ", TemplateToken.ph "title",
        TemplateToken.lit "\n\n", TemplateToken.ph "missing"]
      [("title", some "Foo")] (by decide)
    have hf : flattenTokens
        [TemplateToken.lit "# ", TemplateToken.ph "title",
          TemplateToken.lit "\n\n", TemplateToken.ph "missing"] =
        "# {title}\n\n{missing}" := by decide
    have hr : renderTokens [("title", some "Foo")]
        [TemplateToken.lit "# ", TemplateToken.ph "title",
          TemplateToken.lit "\n\n", TemplateToken.ph "missing"] = "# Foo\n\n" := by decide
    rw [hf, hr] at h
    exact h
